import Mathlib

/-!
Shallow embedding of the product-term factorization and partial-integral
caching engine of `roofitcore/src/RooProduct.cxx`.

Modelling conventions:
* A variable is identified by its name (`String`); a `RooArgSet` of
  variables is a duplicate-free `List String` in insertion order.
* A real product component (`RooAbsReal` member of `_compRSet`) is a
  `RealTerm`: its name plus the set of variable names it depends on
  (the dependency oracle `dependsOn` is answered from that list).
* A category component (`RooAbsCategory` member of `_compCSet`) is a
  `CatTerm`: its name plus its current integer index (`getIndex`).
* Current values of real terms are external: a valuation
  `RVal : String → Option (List String) → ℚ` gives the current value of
  the named term under an optional normalization set (`getVal(nset)`;
  `none` models `getVal()` with no normalization set), and
  `IVal` gives the current value of a synthesized integral object
  (`createIntegral(vars, rangeName)` applied to a built term).
* `Double_t` arithmetic is modelled by `ℚ`.
-/

/-- A real product component: name plus the variables it depends on. -/
structure RealTerm where
  name : String
  deps : List String
deriving DecidableEq

/-- A category (discrete) product component: name plus current index. -/
structure CatTerm where
  name : String
  idx : Int
deriving DecidableEq

/-- The `RooProduct` state: `_compRSet`, `_compCSet`, and the normalization
set `_compRSet.nset()` active at evaluation time. -/
structure Product where
  real : List RealTerm
  cat : List CatTerm
  nset : Option (List String)

/-- Valuation oracle for real terms: `rval name nset` is `getVal(nset)`. -/
def RVal := String → Option (List String) → ℚ

/-- Dependency oracle on a single variable: `rcomp->dependsOn(*var)`. -/
def RealTerm.dependsOnVar (t : RealTerm) (v : String) : Bool :=
  t.deps.contains v

/-- Dependency oracle on a variable set: `rcomp->dependsOn(allVars)` is true
iff the term depends on at least one member of the set. -/
def RealTerm.dependsOnSet (t : RealTerm) (vs : List String) : Bool :=
  vs.any (fun v => t.deps.contains v)

/-- A `ProdMap` entry: a pair of a variable `RooArgSet` and a term
`RooArgSet`, both in insertion order. -/
abbrev ProdGroup := List String × List RealTerm

/-- `RooAbsCollection::overlaps`: true iff some element of the first set has
the name of an element of the second set. -/
def overlapsTerms (a b : List RealTerm) : Bool :=
  a.any (fun t => b.any (fun s => s.name = t.name))

/-- `RooArgSet::add` of a whole set of variables: appends the elements not
already present (presence is by name; variables are their names here). -/
def addVarSet (a b : List String) : List String :=
  a ++ b.filter (fun v => !(a.contains v))

/-- `RooArgSet::add` of a whole set of terms: appends the elements whose
name is not already present. -/
def addTermSet (a b : List RealTerm) : List RealTerm :=
  a ++ b.filter (fun t => !(a.any (fun s => s.name = t.name)))

/-- Merge the second group into the first: `i.first->first->add(...)` and
`i.first->second->add(...)` in the merge loop of `groupProductTerms`. -/
def mergeG (g h : ProdGroup) : ProdGroup :=
  (addVarSet g.1 h.1, addTermSet g.2 h.2)

/-- Scan of the inner loop of `findOverlap2nd` for a fixed first group `g`:
find the first later group whose term set overlaps `g`'s, merge it into `g`
and drop it. `none` when no later group overlaps `g`. -/
def absorbFirst (g : ProdGroup) : List ProdGroup → Option (ProdGroup × List ProdGroup)
  | [] => none
  | h :: t =>
    if overlapsTerms g.2 h.2 then some (mergeG g h, t)
    else
      match absorbFirst g t with
      | none => none
      | some (g', t') => some (g', h :: t')

/-- One iteration of the merge loop: find the first pair (in
`findOverlap2nd` scan order) of groups with overlapping term sets, merge the
second into the first (which keeps its position) and erase the second.
`none` when no pair overlaps, i.e. `findOverlap2nd` returned `(end,end)`. -/
def mergeStep : List ProdGroup → Option (List ProdGroup)
  | [] => none
  | g :: gs =>
    match absorbFirst g gs with
    | some (g', gs') => some (g' :: gs')
    | none =>
      match mergeStep gs with
      | some gs' => some (g :: gs')
      | none => none

/-- The `do … while (overlaps)` merge loop, run with explicit fuel; each
successful step removes one group, so fuel equal to the initial number of
groups always reaches the fixpoint. -/
def mergeLoop : Nat → List ProdGroup → List ProdGroup
  | 0, gs => gs
  | n + 1, gs =>
    match mergeStep gs with
    | none => gs
    | some gs' => mergeLoop n gs'

/-- The independent terms: real components with
`!rcomp->dependsOn(allVars)`. -/
def indepTerms (P : Product) (allVars : List String) : List RealTerm :=
  P.real.filter (fun t => !(t.dependsOnSet allVars))

/-- The groups pushed before the merge loop: the independent group (if. any
independent term exists), then one group per integration variable, in
`allVars` order, holding the real components depending on that variable. -/
def initialGroups (P : Product) (allVars : List String) : List ProdGroup :=
  (if (indepTerms P allVars).isEmpty then [] else
    [(([] : List String), indepTerms P allVars)]) ++
  allVars.map (fun v => ([v], P.real.filter (fun t => t.dependsOnVar v)))

/-- `RooProduct::groupProductTerms`: initial groups followed by the
overlap-merge loop. -/
def groupProductTerms (P : Product) (allVars : List String) : List ProdGroup :=
  mergeLoop (initialGroups P allVars).length (initialGroups P allVars)

/-- `RooProduct::makeFPName`: the given pfx followed by the member names in
the set's stored order, separated by `_X_`. -/
def makeFPName (pfx : String) (terms : List RealTerm) : String :=
  pfx ++ String.intercalate "_X_" (terms.map RealTerm.name)

/-- A term built by the partial-integral builder loop of `getPartIntList`:
either the sole member of a group, or a synthesized sub-`RooProduct` over
the group's members. -/
inductive BuiltTerm where
  | single (t : RealTerm)
  | subProd (name : String) (ts : List RealTerm)
deriving DecidableEq

/-- An element of the cached `_prodList`: the built term appended unchanged
(empty variable set) or its `createIntegral` over the group's variable set
and range. -/
inductive PartElem where
  | direct (b : BuiltTerm)
  | integ (b : BuiltTerm) (vars : List String) (range : Option String)
deriving DecidableEq

/-- Valuation oracle for synthesized integral objects:
`ival b vars range` is the current value of `b->createIntegral(vars, range)`. -/
def IVal := BuiltTerm → List String → Option String → ℚ

/-- Current value (`getVal()`) of a built term: the sole term's value, or,
for a synthesized sub-product, the product of its members' values (the
synthesized `RooProduct` has no category components and no normalization
set of its own). -/
def BuiltTerm.val (rval : RVal) : BuiltTerm → ℚ
  | .single t => rval t.name none
  | .subProd _ ts => ts.foldl (fun acc t => acc * rval t.name none) 1

/-- Current value of a `_prodList` element. -/
def PartElem.val (rval : RVal) (ival : IVal) : PartElem → ℚ
  | .direct b => b.val rval
  | .integ b vars range => ival b vars range

/-- Body of the builder loop of `getPartIntList` for one group: an empty
term set fails the `assert(i->second->getSize()==1)` (modelled as `none`);
more than one member synthesizes a sub-product named by `makeFPName`; then
the group's variable set decides between appending the term unchanged and
appending its integral. -/
def buildGroup (range : Option String) (g : ProdGroup) : Option PartElem :=
  match g.2 with
  | [] => none
  | [t] =>
    some (if g.1.isEmpty then .direct (.single t)
          else .integ (.single t) g.1 range)
  | t :: t' :: ts =>
    some (if g.1.isEmpty then
            .direct (.subProd (makeFPName "SUBPROD_" (t :: t' :: ts)) (t :: t' :: ts))
          else
            .integ (.subProd (makeFPName "SUBPROD_" (t :: t' :: ts)) (t :: t' :: ts))
              g.1 range)

/-- The builder loop over all groups, in the grouper's output order; any
failed assertion aborts the whole build. -/
def buildPartList (range : Option String) : List ProdGroup → Option (List PartElem)
  | [] => some []
  | g :: gs =>
    match buildGroup range g with
    | none => none
    | some e =>
      match buildPartList range gs with
      | none => none
      | some l => some (e :: l)

/-- Modelled from the spec: the cache element `RooProduct::CacheElem`
(class declared in `RooProduct.h`, not under `src/`): the ordered
`_prodList` of ready-to-multiply partial terms. The `_ownedList` only
manages lifetimes and carries no evaluation semantics, so it is omitted. -/
structure CacheElem where
  prodList : List PartElem
deriving DecidableEq

/-- Modelled from the spec: one slot of the `RooCacheManager` (not under
`src/`): the normalized name set of the key (both name sets of the key
coincide in this use), the interned range token, and the payload, which is
`none` after sterilization while the persisted name-set descriptor stays. -/
structure CacheSlot where
  names : List String
  range : Option String
  payload : Option CacheElem
deriving DecidableEq

/-- Modelled from the spec: the `RooCacheManager` state; a slot's index is
its integer code, and codes are never reused because slots are never
removed, only sterilized. -/
structure CacheMgr where
  slots : List CacheSlot
deriving DecidableEq

/-- The empty cache of a freshly constructed product. -/
def emptyCache : CacheMgr := ⟨[]⟩

/-- Modelled from the spec: normalization of a variable set into the cache
key: the duplicate-free, sorted list of names, so equal-by-value sets give
equal keys. -/
def normNames (vs : List String) : List String :=
  List.insertionSort (fun a b => a ≤ b) vs.dedup

/-- Modelled from the spec: index of the first slot whose key (name set and
range token) matches. -/
def findKey (key : List String × Option String) : List CacheSlot → Option Nat
  | [] => none
  | s :: rest =>
    if s.names = key.1 ∧ s.range = key.2 then some 0
    else (findKey key rest).map (· + 1)

/-- Modelled from the spec: `RooCacheManager::getObj` as used by
`getPartIntList`: the code of the first key-matching slot whose payload is
live; a sterile match or no match returns `none` (the C++ call then sets
only `sterileIndex`, which `setObj` re-derives). -/
def getObjIdx (c : CacheMgr) (key : List String × Option String) : Option Nat :=
  match findKey key c.slots with
  | none => none
  | some i =>
    match (c.slots.get? i).bind CacheSlot.payload with
    | none => none
    | some _ => some i

/-- Modelled from the spec: `RooCacheManager::setObj`: store the entry in
the existing slot for this key when one exists (reviving a sterile slot in
place, keeping its code), else append a new slot with a fresh code. -/
def setObj (c : CacheMgr) (key : List String × Option String) (e : CacheElem) :
    Nat × CacheMgr :=
  match findKey key c.slots with
  | some i => (i, ⟨c.slots.set i ⟨key.1, key.2, some e⟩⟩)
  | none => (c.slots.length, ⟨c.slots ++ [⟨key.1, key.2, some e⟩]⟩)

/-- Modelled from the spec: `RooCacheManager::getObjByIndex`: the payload
backing a code, `none` when that slot was sterilized. -/
def getObjByIndex (c : CacheMgr) (i : Nat) : Option CacheElem :=
  (c.slots.get? i).bind CacheSlot.payload

/-- Modelled from the spec: the persisted descriptor
`RooCacheManager::nameSet2ByIndex`: the stored name set of a slot, which
survives sterilization. -/
def nameSet2ByIndex (c : CacheMgr) (i : Nat) : Option (List String) :=
  (c.slots.get? i).map CacheSlot.names

/-- Modelled from the spec: sterilization of one slot: the payload is
dropped, the key (and with it the slot's code) is kept for revival. -/
def sterilize (c : CacheMgr) (i : Nat) : CacheMgr :=
  match c.slots.get? i with
  | none => c
  | some s => ⟨c.slots.set i ⟨s.names, s.range, none⟩⟩

/-- `RooProduct::getPartIntList`: return the code of a live cached entry if
one exists for this key; otherwise group the product terms, give up with
`-1` when fewer than two groups came back, else build the partial-integral
list, store it and return its code. `none` models the assertion aborts of
the builder loop. -/
def getPartIntList (P : Product) (c : CacheMgr) (iset : List String)
    (range : Option String) : Option (Int × CacheMgr) :=
  match getObjIdx c (normNames iset, range) with
  | some i => some ((i : Int), c)
  | none =>
    if (groupProductTerms P iset).length < 2 then some (-1, c)
    else
      match buildPartList range (groupProductTerms P iset) with
      | none => none
      | some l =>
        let r := setObj c (normNames iset, range) ⟨l⟩
        some ((r.1 : Int), r.2)

/-- `RooProduct::calculate`: multiply the current values of every element
of a cached `_prodList`, starting from 1. -/
def calculate (rval : RVal) (ival : IVal) (l : List PartElem) : ℚ :=
  l.foldl (fun acc e => acc * e.val rval ival) 1

/-- `RooProduct::analyticalIntegral` for a 1-based code: read the backing
entry; on a sterilized slot, re-derive the variable set from the persisted
descriptor, re-run `getPartIntList` (which must land in the same slot:
`assert(code==code2)`, modelled as `none` on mismatch) and evaluate the
revived entry. An unknown code is a fatal error (`none`). -/
def analyticalIntegral (rval : RVal) (ival : IVal) (P : Product)
    (c : CacheMgr) (code : Int) (range : Option String) :
    Option (ℚ × CacheMgr) :=
  match getObjByIndex c (code - 1).toNat with
  | some cache => some (calculate rval ival cache.prodList, c)
  | none =>
    match nameSet2ByIndex c (code - 1).toNat with
    | none => none
    | some isetNames =>
      match getPartIntList P c isetNames range with
      | none => none
      | some (code2, c') =>
        if code2 + 1 = code then
          match getObjByIndex c' (code - 1).toNat with
          | some cache => some (calculate rval ival cache.prodList, c')
          | none => none
        else none

/-- `RooProduct::evaluate`: starting from 1, multiply in the current value
of every real component under the set's normalization set, then the
current index of every category component. -/
def RooProduct.evaluate (rval : RVal) (P : Product) : ℚ :=
  P.cat.foldl (fun acc c => acc * (c.idx : ℚ))
    (P.real.foldl (fun acc t => acc * rval t.name P.nset) 1)

-- Sanity: f(x), g(y), h(x,y) integrated over {x,y} collapse to one group.
example :
    groupProductTerms
      ⟨[⟨"f", ["x"]⟩, ⟨"g", ["y"]⟩, ⟨"h", ["x", "y"]⟩], [], none⟩
      ["x", "y"]
    = [(["x", "y"], [⟨"f", ["x"]⟩, ⟨"h", ["x", "y"]⟩, ⟨"g", ["y"]⟩])] := by
  decide

-- Sanity: f(x), g(y) integrated over {x}: independent group first.
example :
    groupProductTerms ⟨[⟨"f", ["x"]⟩, ⟨"g", ["y"]⟩], [], none⟩ ["x"]
    = [([], [⟨"g", ["y"]⟩]), (["x"], [⟨"f", ["x"]⟩])] := by
  decide

/-! Lemmas on the overlap predicate and the merge loop. -/

lemma overlapsTerms_eq_true {a b : List RealTerm} :
    overlapsTerms a b = true ↔ ∃ t ∈ a, ∃ s ∈ b, s.name = t.name := by
  simp [overlapsTerms]

lemma overlapsTerms_eq_false {a b : List RealTerm} :
    overlapsTerms a b = false ↔ ∀ t ∈ a, ∀ s ∈ b, ¬s.name = t.name := by
  simp [overlapsTerms]

lemma absorbFirst_eq {g g' : ProdGroup} {gs gs' : List ProdGroup}
    (hab : absorbFirst g gs = some (g', gs')) :
    ∃ pre h post, gs = pre ++ h :: post ∧ gs' = pre ++ post ∧
      g' = mergeG g h ∧ overlapsTerms g.2 h.2 = true := by
  induction gs generalizing g' gs' with
  | nil => simp [absorbFirst] at hab
  | cons h t ih =>
    rw [absorbFirst] at hab
    by_cases hov : overlapsTerms g.2 h.2 = true
    · rw [if_pos hov] at hab
      simp only [Option.some.injEq, Prod.mk.injEq] at hab
      obtain ⟨rfl, rfl⟩ := hab
      exact ⟨[], h, t, by simp, by simp, rfl, hov⟩
    · rw [if_neg hov] at hab
      cases hrec : absorbFirst g t with
      | none => rw [hrec] at hab; cases hab
      | some pr =>
        obtain ⟨g2, t2⟩ := pr
        rw [hrec] at hab
        simp only [Option.some.injEq, Prod.mk.injEq] at hab
        obtain ⟨rfl, rfl⟩ := hab
        obtain ⟨pre, hh, post, rfl, rfl, rfl, hov2⟩ := ih hrec
        exact ⟨h :: pre, hh, post, rfl, rfl, rfl, hov2⟩

lemma absorbFirst_eq_none {g : ProdGroup} {gs : List ProdGroup} :
    absorbFirst g gs = none ↔ ∀ h ∈ gs, overlapsTerms g.2 h.2 = false := by
  induction gs with
  | nil => simp [absorbFirst]
  | cons h t ih =>
    rw [absorbFirst]
    by_cases hov : overlapsTerms g.2 h.2 = true
    · rw [if_pos hov]
      constructor
      · intro hcon; cases hcon
      · intro hall
        have := hall h (List.mem_cons_self h t)
        rw [hov] at this; cases this
    · rw [if_neg hov]
      cases hrec : absorbFirst g t with
      | none =>
        simp only [Bool.not_eq_true] at hov
        constructor
        · intro _ h' hmem
          rcases List.mem_cons.mp hmem with rfl | hmem'
          · exact hov
          · exact ih.mp hrec h' hmem'
        · intro _; rfl
      | some pr =>
        obtain ⟨g2, t2⟩ := pr
        constructor
        · intro hcon; cases hcon
        · intro hall
          have : absorbFirst g t = none := by
            rw [ih]; intro x hx; exact hall x (List.mem_cons_of_mem h hx)
          rw [this] at hrec; cases hrec

lemma mergeStep_eq {gs gs' : List ProdGroup} (h : mergeStep gs = some gs') :
    ∃ pre g mid hh post, gs = pre ++ g :: (mid ++ hh :: post) ∧
      gs' = pre ++ mergeG g hh :: (mid ++ post) ∧
      overlapsTerms g.2 hh.2 = true := by
  induction gs generalizing gs' with
  | nil => simp [mergeStep] at h
  | cons g t ih =>
    rw [mergeStep] at h
    cases hab : absorbFirst g t with
    | some pr =>
      obtain ⟨g2, t2⟩ := pr
      rw [hab] at h
      simp only [Option.some.injEq] at h
      subst h
      obtain ⟨pre, hh, post, rfl, rfl, rfl, hov⟩ := absorbFirst_eq hab
      exact ⟨[], g, pre, hh, post, by simp, by simp, hov⟩
    | none =>
      rw [hab] at h
      cases hrec : mergeStep t with
      | none => rw [hrec] at h; cases h
      | some t2 =>
        rw [hrec] at h
        simp only [Option.some.injEq] at h
        subst h
        obtain ⟨pre, g1, mid, hh, post, rfl, rfl, hov⟩ := ih hrec
        exact ⟨g :: pre, g1, mid, hh, post, rfl, rfl, hov⟩

lemma mergeStep_eq_none {gs : List ProdGroup} :
    mergeStep gs = none ↔
      List.Pairwise (fun a b => overlapsTerms a.2 b.2 = false) gs := by
  induction gs with
  | nil => simp [mergeStep]
  | cons g t ih =>
    rw [mergeStep]
    cases hab : absorbFirst g t with
    | some pr =>
      obtain ⟨g2, t2⟩ := pr
      constructor
      · intro hcon; cases hcon
      · intro hpw
        have : absorbFirst g t = none :=
          absorbFirst_eq_none.mpr (fun h hmem =>
            List.rel_of_pairwise_cons hpw hmem)
        rw [this] at hab; cases hab
    | none =>
      cases hrec : mergeStep t with
      | none =>
        constructor
        · intro _
          exact List.pairwise_cons.mpr ⟨absorbFirst_eq_none.mp hab, ih.mp hrec⟩
        · intro _; rfl
      | some t2 =>
        constructor
        · intro hcon; cases hcon
        · intro hpw
          have : mergeStep t = none := ih.mpr (List.Pairwise.of_cons hpw)
          rw [this] at hrec; cases hrec

lemma mergeStep_length {gs gs' : List ProdGroup} (h : mergeStep gs = some gs') :
    gs'.length + 1 = gs.length := by
  obtain ⟨pre, g, mid, hh, post, rfl, rfl, -⟩ := mergeStep_eq h
  simp only [List.length_append, List.length_cons]
  omega

lemma mergeLoop_no_overlap :
    ∀ (n : Nat) (gs : List ProdGroup), gs.length ≤ n →
      mergeStep (mergeLoop n gs) = none := by
  intro n
  induction n with
  | zero =>
    intro gs h
    have : gs = [] := List.length_eq_zero.mp (Nat.le_zero.mp h)
    subst this
    rfl
  | succ n ih =>
    intro gs h
    rw [mergeLoop]
    cases hms : mergeStep gs with
    | none => exact hms
    | some gs' =>
      apply ih
      have := mergeStep_length hms
      omega

lemma mergeLoop_pres {Q : List ProdGroup → Prop}
    (hstep : ∀ gs gs', mergeStep gs = some gs' → Q gs → Q gs') :
    ∀ (n : Nat) (gs : List ProdGroup), Q gs → Q (mergeLoop n gs) := by
  intro n
  induction n with
  | zero => intro gs hq; exact hq
  | succ n ih =>
    intro gs hq
    rw [mergeLoop]
    cases hms : mergeStep gs with
    | none => exact hq
    | some gs' => exact ih gs' (hstep gs gs' hms hq)

lemma groupProductTerms_no_overlap (P : Product) (allVars : List String) :
    List.Pairwise (fun a b => overlapsTerms a.2 b.2 = false)
      (groupProductTerms P allVars) :=
  mergeStep_eq_none.mp (mergeLoop_no_overlap _ _ le_rfl)

lemma groupProductTerms_pres {Q : List ProdGroup → Prop}
    (hstep : ∀ gs gs', mergeStep gs = some gs' → Q gs → Q gs')
    (P : Product) (allVars : List String)
    (hinit : Q (initialGroups P allVars)) :
    Q (groupProductTerms P allVars) :=
  mergeLoop_pres hstep _ _ hinit

/-! Invariants of the grouper, preserved by the merge loop. -/

/-- The variable sets of the groups, concatenated, are a permutation of the
requested integration variables. -/
def VarsPerm (allVars : List String) (gs : List ProdGroup) : Prop :=
  List.Perm ((gs.map Prod.fst).flatten) allVars

/-- Term-set bookkeeping: every group member is a real component of the
product, every real component is in some group, and no group holds two
members of the same name. -/
def TermsOK (P : Product) (gs : List ProdGroup) : Prop :=
  (∀ g ∈ gs, ∀ t ∈ g.2, t ∈ P.real) ∧
  (∀ t ∈ P.real, ∃ g ∈ gs, t ∈ g.2) ∧
  (∀ g ∈ gs, (g.2.map RealTerm.name).Nodup)

lemma name_inj {l : List RealTerm} (hnd : (l.map RealTerm.name).Nodup)
    {s t : RealTerm} (hs : s ∈ l) (ht : t ∈ l) (h : s.name = t.name) :
    s = t :=
  List.inj_on_of_nodup_map hnd hs ht h

lemma addVarSet_of_disjoint {a b : List String} (h : ∀ v ∈ b, v ∉ a) :
    addVarSet a b = a ++ b := by
  unfold addVarSet
  congr 1
  apply List.filter_eq_self.mpr
  intro v hv
  simpa using h v hv

lemma mem_of_mem_addTermSet {a b : List RealTerm} {t : RealTerm}
    (h : t ∈ addTermSet a b) : t ∈ a ∨ t ∈ b := by
  unfold addTermSet at h
  rcases List.mem_append.mp h with h' | h'
  · exact Or.inl h'
  · exact Or.inr (List.mem_of_mem_filter h')

lemma mem_addTermSet_right {a b : List RealTerm} {t : RealTerm} (hb : t ∈ b)
    (hinj : ∀ s ∈ a, s.name = t.name → s = t) : t ∈ addTermSet a b := by
  unfold addTermSet
  by_cases hx : ∃ s ∈ a, s.name = t.name
  · obtain ⟨s, hs, he⟩ := hx
    exact List.mem_append_left _ (hinj s hs he ▸ hs)
  · apply List.mem_append_right
    apply List.mem_filter.mpr
    refine ⟨hb, ?_⟩
    push_neg at hx
    simp only [Bool.not_eq_true', List.any_eq_false, decide_eq_true_eq]
    intro s hs
    exact hx s hs

lemma addTermSet_names_nodup {a b : List RealTerm}
    (ha : (a.map RealTerm.name).Nodup) (hb : (b.map RealTerm.name).Nodup) :
    ((addTermSet a b).map RealTerm.name).Nodup := by
  unfold addTermSet
  rw [List.map_append, List.nodup_append]
  refine ⟨ha, (List.Sublist.map _ (List.filter_sublist _)).nodup hb, ?_⟩
  intro n hna hnb
  obtain ⟨s, hs, rfl⟩ := List.mem_map.mp hna
  obtain ⟨u, hu, hun⟩ := List.mem_map.mp hnb
  have hupred := (List.mem_filter.mp hu).2
  simp only [Bool.not_eq_true', List.any_eq_false, decide_eq_true_eq] at hupred
  exact hupred s hs hun.symm

lemma vars_perm_step {allVars : List String} (hnd : allVars.Nodup)
    {gs gs' : List ProdGroup} (hms : mergeStep gs = some gs')
    (hQ : VarsPerm allVars gs) : VarsPerm allVars gs' := by
  obtain ⟨pre, g, mid, h, post, rfl, rfl, -⟩ := mergeStep_eq hms
  unfold VarsPerm at *
  simp only [List.map_append, List.map_cons, List.flatten_append,
    List.flatten_cons, List.append_assoc] at hQ ⊢
  have hflatnd : ((pre.map Prod.fst).flatten ++
      (g.1 ++ ((mid.map Prod.fst).flatten ++
        (h.1 ++ (post.map Prod.fst).flatten)))).Nodup :=
    hQ.nodup_iff.mpr hnd
  have hgnd := (List.nodup_append.mp hflatnd).2.1
  have hdisj := (List.nodup_append.mp hgnd).2.2
  have hdis : ∀ v ∈ h.1, v ∉ g.1 := by
    intro v hv hvg
    exact hdisj hvg
      (List.mem_append_right _ (List.mem_append_left _ hv))
  have : mergeG g h = (g.1 ++ h.1, addTermSet g.2 h.2) := by
    unfold mergeG
    rw [addVarSet_of_disjoint hdis]
  rw [this]
  refine List.Perm.trans ?_ hQ
  rw [List.perm_iff_count]
  intro v
  simp only [List.count_append]
  ring

lemma termsOK_step {P : Product} (hnm : (P.real.map RealTerm.name).Nodup)
    {gs gs' : List ProdGroup} (hms : mergeStep gs = some gs')
    (hQ : TermsOK P gs) : TermsOK P gs' := by
  obtain ⟨pre, g, mid, h, post, rfl, rfl, -⟩ := mergeStep_eq hms
  obtain ⟨hmem, hcov, hnd⟩ := hQ
  have hgmem : ∀ t ∈ g.2, t ∈ P.real :=
    hmem g (by simp)
  have hhmem : ∀ t ∈ h.2, t ∈ P.real :=
    hmem h (by simp)
  refine ⟨?_, ?_, ?_⟩
  · intro g' hg' t ht
    simp only [List.mem_append, List.mem_cons] at hg'
    rcases hg' with hg' | hg' | hg' | hg'
    · exact hmem g' (by simp [hg']) t ht
    · subst hg'
      rcases mem_of_mem_addTermSet ht with h' | h'
      · exact hgmem t h'
      · exact hhmem t h'
    · exact hmem g' (by simp [hg']) t ht
    · exact hmem g' (by simp [hg']) t ht
  · intro t htr
    obtain ⟨g', hg', htg'⟩ := hcov t htr
    simp only [List.mem_append, List.mem_cons] at hg'
    have hmerge_left : t ∈ g.2 → t ∈ (mergeG g h).2 := fun h' =>
      List.mem_append_left _ h'
    have hmerge_right : t ∈ h.2 → t ∈ (mergeG g h).2 := fun h' =>
      mem_addTermSet_right h' (fun s hs he =>
        name_inj hnm (hgmem s hs) htr he)
    rcases hg' with hg' | hg' | hg' | hg' | hg'
    · exact ⟨g', by simp [hg'], htg'⟩
    · exact ⟨mergeG g h, by simp, hmerge_left (hg' ▸ htg')⟩
    · exact ⟨g', by simp [hg'], htg'⟩
    · exact ⟨mergeG g h, by simp, hmerge_right (hg' ▸ htg')⟩
    · exact ⟨g', by simp [hg'], htg'⟩
  · intro g' hg'
    simp only [List.mem_append, List.mem_cons] at hg'
    rcases hg' with hg' | hg' | hg' | hg'
    · exact hnd g' (by simp [hg'])
    · subst hg'
      exact addTermSet_names_nodup (hnd g (by simp)) (hnd h (by simp))
    · exact hnd g' (by simp [hg'])
    · exact hnd g' (by simp [hg'])

lemma flatten_map_singleton (l : List String) :
    (l.map (fun v => ([v] : List String))).flatten = l := by
  induction l with
  | nil => rfl
  | cons v t ih => simp [ih]

lemma vars_perm_init (P : Product) (allVars : List String) :
    VarsPerm allVars (initialGroups P allVars) := by
  unfold VarsPerm initialGroups
  by_cases hie : (indepTerms P allVars).isEmpty
  · rw [if_pos hie]
    simp only [List.nil_append, List.map_map]
    have : (Prod.fst ∘ fun v => (([v] : List String),
        P.real.filter (fun t => t.dependsOnVar v))) = fun v => [v] := rfl
    rw [this, flatten_map_singleton]
  · rw [if_neg hie]
    simp only [List.cons_append, List.nil_append, List.map_cons,
      List.map_map, List.flatten_cons, List.nil_append]
    have : (Prod.fst ∘ fun v => (([v] : List String),
        P.real.filter (fun t => t.dependsOnVar v))) = fun v => [v] := rfl
    rw [this, flatten_map_singleton]

lemma termsOK_init (P : Product) (allVars : List String)
    (hnm : (P.real.map RealTerm.name).Nodup) :
    TermsOK P (initialGroups P allVars) := by
  refine ⟨?_, ?_, ?_⟩
  · intro g hg t ht
    unfold initialGroups at hg
    simp only [List.mem_append, List.mem_map] at hg
    rcases hg with hg | ⟨v, hv, hveq⟩
    · by_cases hie : (indepTerms P allVars).isEmpty
      · rw [if_pos hie] at hg; cases hg
      · rw [if_neg hie] at hg
        rw [List.mem_singleton] at hg
        subst hg
        exact List.mem_of_mem_filter ht
    · rw [← hveq] at ht
      exact List.mem_of_mem_filter ht
  · intro t htr
    cases hdep : t.dependsOnSet allVars with
    | true =>
      have hex : ∃ v ∈ allVars, t.deps.contains v = true := by
        simpa [RealTerm.dependsOnSet] using hdep
      obtain ⟨v, hv, hc⟩ := hex
      refine ⟨([v], P.real.filter (fun s => s.dependsOnVar v)), ?_, ?_⟩
      · unfold initialGroups
        exact List.mem_append_right _ (List.mem_map.mpr ⟨v, hv, rfl⟩)
      · exact List.mem_filter.mpr ⟨htr, hc⟩
    | false =>
      have hind : t ∈ indepTerms P allVars := by
        apply List.mem_filter.mpr
        refine ⟨htr, ?_⟩
        simp [RealTerm.dependsOnSet] at hdep ⊢
        exact hdep
      have hne : ¬(indepTerms P allVars).isEmpty = true := by
        intro hie
        rw [List.isEmpty_iff] at hie
        rw [hie] at hind
        cases hind
      refine ⟨([], indepTerms P allVars), ?_, hind⟩
      unfold initialGroups
      rw [if_neg hne]
      exact List.mem_append_left _ (List.mem_singleton.mpr rfl)
  · intro g hg
    unfold initialGroups at hg
    simp only [List.mem_append, List.mem_map] at hg
    rcases hg with hg | ⟨v, hv, hveq⟩
    · by_cases hie : (indepTerms P allVars).isEmpty
      · rw [if_pos hie] at hg; cases hg
      · rw [if_neg hie] at hg
        rw [List.mem_singleton] at hg
        subst hg
        exact List.Nodup.sublist ((List.filter_sublist _).map _) hnm
    · rw [← hveq]
      exact List.Nodup.sublist ((List.filter_sublist _).map _) hnm

lemma groupProductTerms_vars_perm (P : Product) (allVars : List String)
    (hnd : allVars.Nodup) :
    VarsPerm allVars (groupProductTerms P allVars) :=
  groupProductTerms_pres
    (fun _ _ hms hq => vars_perm_step hnd hms hq) P allVars
    (vars_perm_init P allVars)

lemma groupProductTerms_termsOK (P : Product) (allVars : List String)
    (hnm : (P.real.map RealTerm.name).Nodup) :
    TermsOK P (groupProductTerms P allVars) :=
  groupProductTerms_pres
    (fun _ _ hms hq => termsOK_step hnm hms hq) P allVars
    (termsOK_init P allVars hnm)

lemma disjoint_names_of_not_overlaps {a b : List RealTerm}
    (h : overlapsTerms a b = false) :
    List.Disjoint (a.map RealTerm.name) (b.map RealTerm.name) := by
  intro n hna hnb
  obtain ⟨s, hs, rfl⟩ := List.mem_map.mp hna
  obtain ⟨u, hu, hun⟩ := List.mem_map.mp hnb
  exact absurd hun (overlapsTerms_eq_false.mp h s hs u hu)

lemma groupProductTerms_sum_vars (P : Product) (allVars : List String)
    (hnd : allVars.Nodup) :
    ((groupProductTerms P allVars).map (fun g => g.1.length)).sum
      = allVars.length := by
  have hperm := groupProductTerms_vars_perm P allVars hnd
  have hlen := hperm.length_eq
  rw [List.length_flatten, List.map_map] at hlen
  exact hlen

lemma groupProductTerms_sum_terms (P : Product) (allVars : List String)
    (hnm : (P.real.map RealTerm.name).Nodup) :
    ((groupProductTerms P allVars).map (fun g => g.2.length)).sum
      = P.real.length := by
  obtain ⟨hmem, hcov, hnd⟩ := groupProductTerms_termsOK P allVars hnm
  have hpw := groupProductTerms_no_overlap P allVars
  set out := groupProductTerms P allVars with hout
  set N := (out.map (fun g => g.2.map RealTerm.name)).flatten with hN
  have hNnd : N.Nodup := by
    rw [hN, List.nodup_flatten]
    constructor
    · intro l hl
      obtain ⟨g, hg, rfl⟩ := List.mem_map.mp hl
      exact hnd g hg
    · rw [List.pairwise_map]
      exact hpw.imp (fun hov => disjoint_names_of_not_overlaps hov)
  have hsub1 : N ⊆ P.real.map RealTerm.name := by
    intro n hn
    obtain ⟨l, hl, hnl⟩ := List.mem_flatten.mp hn
    obtain ⟨g, hg, rfl⟩ := List.mem_map.mp hl
    obtain ⟨t, ht, rfl⟩ := List.mem_map.mp hnl
    exact List.mem_map.mpr ⟨t, hmem g hg t ht, rfl⟩
  have hsub2 : P.real.map RealTerm.name ⊆ N := by
    intro n hn
    obtain ⟨t, ht, rfl⟩ := List.mem_map.mp hn
    obtain ⟨g, hg, htg⟩ := hcov t ht
    rw [hN]
    apply List.mem_flatten.mpr
    exact ⟨g.2.map RealTerm.name, List.mem_map.mpr ⟨g, hg, rfl⟩,
      List.mem_map.mpr ⟨t, htg, rfl⟩⟩
  have hle1 := (List.subperm_of_subset hNnd hsub1).length_le
  have hle2 := (List.subperm_of_subset hnm hsub2).length_le
  have hNlen : N.length = P.real.length := by
    rw [List.length_map] at hle1 hle2
    omega
  rw [← hNlen, hN, List.length_flatten, List.map_map]
  simp only [Function.comp_def, List.length_map]

lemma groupProductTerms_vars_disjoint (P : Product) (allVars : List String)
    (hnd : allVars.Nodup) :
    List.Pairwise (fun a b : ProdGroup => ∀ v ∈ a.1, v ∉ b.1)
      (groupProductTerms P allVars) := by
  have hperm := groupProductTerms_vars_perm P allVars hnd
  have hflatnd :
      (((groupProductTerms P allVars).map Prod.fst).flatten).Nodup :=
    hperm.nodup_iff.mpr hnd
  have hpw := (List.nodup_flatten.mp hflatnd).2
  rw [List.pairwise_map] at hpw
  exact hpw.imp (fun hd _ hv hv' => hd hv hv')

lemma countP_contains_eq_zero (v : String) :
    ∀ (gs : List ProdGroup),
      (gs.map (fun g => g.1.count v)).sum = 0 →
      gs.countP (fun g => g.1.contains v) = 0 := by
  intro gs
  induction gs with
  | nil => intro _; rfl
  | cons g t ih =>
    intro hsum
    simp only [List.map_cons, List.sum_cons] at hsum
    have hc : g.1.count v = 0 := by omega
    have hs : (t.map (fun g => g.1.count v)).sum = 0 := by omega
    have hnm : v ∉ g.1 := List.count_eq_zero.mp hc
    rw [List.countP_cons, ih hs]
    simp [hnm]

lemma countP_contains_eq_one (v : String) :
    ∀ (gs : List ProdGroup),
      (gs.map (fun g => g.1.count v)).sum = 1 →
      gs.countP (fun g => g.1.contains v) = 1 := by
  intro gs
  induction gs with
  | nil => intro hsum; cases hsum
  | cons g t ih =>
    intro hsum
    simp only [List.map_cons, List.sum_cons] at hsum
    rw [List.countP_cons]
    by_cases hc : g.1.count v = 0
    · have hs : (t.map (fun g => g.1.count v)).sum = 1 := by omega
      have hnm : v ∉ g.1 := List.count_eq_zero.mp hc
      rw [ih hs]
      simp [hnm]
    · have hmem : v ∈ g.1 := by
        by_contra hnm
        exact hc (List.count_eq_zero.mpr hnm)
      have hs : (t.map (fun g => g.1.count v)).sum = 0 := by
        have := List.count_pos_iff.mpr hmem
        omega
      rw [countP_contains_eq_zero v t hs]
      simp [hmem]

lemma groupProductTerms_var_once (P : Product) (allVars : List String)
    (hnd : allVars.Nodup) {v : String} (hv : v ∈ allVars) :
    (groupProductTerms P allVars).countP (fun g => g.1.contains v) = 1 := by
  have hperm := groupProductTerms_vars_perm P allVars hnd
  have h1 : List.count v
      (((groupProductTerms P allVars).map Prod.fst).flatten) = 1 := by
    rw [hperm.count_eq]
    exact List.count_eq_one_of_mem hnd hv
  rw [List.count_flatten, List.map_map] at h1
  exact countP_contains_eq_one v _ h1

/-! The independent-terms group: created first and never merged away. -/

/-- Head-group invariant: the independent group leads the list, and every
other group has a non-empty variable set and holds only dependent real
components. -/
def HeadIndep (P : Product) (allVars : List String)
    (gs : List ProdGroup) : Prop :=
  ∃ rest, gs = ([], indepTerms P allVars) :: rest ∧
    ∀ g ∈ rest, g.1 ≠ [] ∧
      ∀ t ∈ g.2, t.dependsOnSet allVars = true ∧ t ∈ P.real

lemma indepTerms_not_depends {P : Product} {allVars : List String}
    {t : RealTerm} (h : t ∈ indepTerms P allVars) :
    t.dependsOnSet allVars = false ∧ t ∈ P.real := by
  have := List.mem_filter.mp h
  refine ⟨?_, this.1⟩
  have := this.2
  simpa using this

lemma headIndep_step {P : Product} {allVars : List String}
    (hnm : (P.real.map RealTerm.name).Nodup)
    {gs gs' : List ProdGroup} (hms : mergeStep gs = some gs')
    (hQ : HeadIndep P allVars gs) : HeadIndep P allVars gs' := by
  obtain ⟨pre, g, mid, h, post, heq, rfl, hov⟩ := mergeStep_eq hms
  obtain ⟨rest, hgs, hrest⟩ := hQ
  cases pre with
  | nil =>
    rw [hgs] at heq
    simp only [List.nil_append] at heq
    obtain ⟨hg, hrest'⟩ := List.cons.injEq _ _ _ _ ▸ heq.symm
    obtain ⟨t, ht, s, hs, hsn⟩ := overlapsTerms_eq_true.mp hov
    have hh : h ∈ rest := by
      rw [← hrest']
      exact List.mem_append_right _ (List.mem_cons_self _ _)
    have hsdep := (hrest h hh).2 s hs
    rw [hg] at ht
    have htind := indepTerms_not_depends ht
    have : s = t := name_inj hnm hsdep.2 htind.2 hsn
    rw [this] at hsdep
    rw [htind.1] at hsdep
    cases hsdep.1
  | cons p pre' =>
    rw [hgs] at heq
    simp only [List.cons_append] at heq
    obtain ⟨hp, hrest'⟩ := List.cons.injEq _ _ _ _ ▸ heq
    refine ⟨pre' ++ mergeG g h :: (mid ++ post), by rw [← hp, List.cons_append], ?_⟩
    have hgmem : g ∈ rest := by
      rw [hrest']
      exact List.mem_append_right _ (List.mem_cons_self _ _)
    have hhmem : h ∈ rest := by
      rw [hrest']
      apply List.mem_append_right
      apply List.mem_cons_of_mem
      exact List.mem_append_right _ (List.mem_cons_self _ _)
    intro g' hg'
    simp only [List.mem_append, List.mem_cons] at hg'
    rcases hg' with hg' | hg' | hg' | hg'
    · exact hrest g' (by rw [hrest']; simp [hg'])
    · subst hg'
      constructor
      · have := (hrest g hgmem).1
        unfold mergeG addVarSet
        intro hnil
        rcases List.append_eq_nil.mp hnil with ⟨h1, -⟩
        exact this h1
      · intro t ht
        rcases mem_of_mem_addTermSet ht with h' | h'
        · exact (hrest g hgmem).2 t h'
        · exact (hrest h hhmem).2 t h'
    · exact hrest g' (by rw [hrest']; simp [hg'])
    · exact hrest g' (by rw [hrest']; simp [hg'])

lemma headIndep_init (P : Product) (allVars : List String)
    (hne : indepTerms P allVars ≠ []) :
    HeadIndep P allVars (initialGroups P allVars) := by
  have hie : ¬(indepTerms P allVars).isEmpty = true := by
    intro h
    exact hne (List.isEmpty_iff.mp h)
  refine ⟨allVars.map (fun v => ([v], P.real.filter (fun t => t.dependsOnVar v))),
    ?_, ?_⟩
  · unfold initialGroups
    rw [if_neg hie]
    rfl
  · intro g hg
    obtain ⟨v, hv, rfl⟩ := List.mem_map.mp hg
    refine ⟨by simp, ?_⟩
    intro t ht
    have := List.mem_filter.mp ht
    refine ⟨?_, this.1⟩
    apply List.any_eq_true.mpr
    exact ⟨v, hv, this.2⟩

lemma groupProductTerms_head_indep (P : Product) (allVars : List String)
    (hnm : (P.real.map RealTerm.name).Nodup)
    (hne : indepTerms P allVars ≠ []) :
    ∃ rest, groupProductTerms P allVars
        = ([], indepTerms P allVars) :: rest ∧
      ∀ g ∈ rest, g.1 ≠ [] := by
  have := groupProductTerms_pres
    (fun _ _ hms hq => headIndep_step hnm hms hq) P allVars
    (headIndep_init P allVars hne)
  obtain ⟨rest, hgs, hrest⟩ := this
  exact ⟨rest, hgs, fun g hg => (hrest g hg).1⟩

/-! Groups with empty term sets survive the merge loop untouched. -/

lemma overlapsTerms_ne_nil {a b : List RealTerm}
    (h : overlapsTerms a b = true) : a ≠ [] ∧ b ≠ [] := by
  obtain ⟨t, ht, s, hs, -⟩ := overlapsTerms_eq_true.mp h
  exact ⟨List.ne_nil_of_mem ht, List.ne_nil_of_mem hs⟩

lemma mergeStep_pres_empty_mem {e : ProdGroup} (he : e.2 = [])
    {gs gs' : List ProdGroup} (hms : mergeStep gs = some gs')
    (hmem : e ∈ gs) : e ∈ gs' := by
  obtain ⟨pre, g, mid, h, post, rfl, rfl, hov⟩ := mergeStep_eq hms
  obtain ⟨hgne, hhne⟩ := overlapsTerms_ne_nil hov
  simp only [List.mem_append, List.mem_cons] at hmem ⊢
  rcases hmem with hm | hm | hm | hm | hm
  · exact Or.inl hm
  · exact absurd (hm ▸ he) hgne
  · exact Or.inr (Or.inr (Or.inl hm))
  · exact absurd (hm ▸ he) hhne
  · exact Or.inr (Or.inr (Or.inr hm))

lemma initialGroups_empty_group (P : Product) (allVars : List String)
    {v : String} (hv : v ∈ allVars)
    (hnodep : ∀ t ∈ P.real, t.dependsOnVar v = false) :
    ([v], ([] : List RealTerm)) ∈ initialGroups P allVars := by
  unfold initialGroups
  apply List.mem_append_right
  apply List.mem_map.mpr
  refine ⟨v, hv, ?_⟩
  have : P.real.filter (fun t => t.dependsOnVar v) = [] := by
    apply List.filter_eq_nil_iff.mpr
    intro t ht
    simp [hnodep t ht]
  rw [this]

lemma groupProductTerms_empty_group (P : Product) (allVars : List String)
    {v : String} (hv : v ∈ allVars)
    (hnodep : ∀ t ∈ P.real, t.dependsOnVar v = false) :
    ([v], ([] : List RealTerm)) ∈ groupProductTerms P allVars :=
  groupProductTerms_pres
    (fun _ _ hms hq => mergeStep_pres_empty_mem rfl hms hq) P allVars
    (initialGroups_empty_group P allVars hv hnodep)

/-! Non-empty term sets are preserved; they make the builder total. -/

lemma mergeStep_pres_nonempty {gs gs' : List ProdGroup}
    (hms : mergeStep gs = some gs')
    (h : ∀ g ∈ gs, g.2 ≠ []) : ∀ g ∈ gs', g.2 ≠ [] := by
  obtain ⟨pre, g, mid, hh, post, rfl, rfl, -⟩ := mergeStep_eq hms
  intro g' hg'
  simp only [List.mem_append, List.mem_cons] at hg'
  rcases hg' with hm | hm | hm | hm
  · exact h g' (by simp [hm])
  · subst hm
    unfold mergeG addTermSet
    intro hnil
    rcases List.append_eq_nil.mp hnil with ⟨h1, -⟩
    exact h g (by simp) h1
  · exact h g' (by simp [hm])
  · exact h g' (by simp [hm])

lemma initialGroups_nonempty (P : Product) (allVars : List String)
    (hdep : ∀ v ∈ allVars, ∃ t ∈ P.real, t.dependsOnVar v = true) :
    ∀ g ∈ initialGroups P allVars, g.2 ≠ [] := by
  intro g hg
  unfold initialGroups at hg
  simp only [List.mem_append, List.mem_map] at hg
  rcases hg with hg | ⟨v, hv, hveq⟩
  · by_cases hie : (indepTerms P allVars).isEmpty
    · rw [if_pos hie] at hg; cases hg
    · rw [if_neg hie] at hg
      rw [List.mem_singleton] at hg
      subst hg
      intro hnil
      rw [List.isEmpty_iff] at hie
      exact hie hnil
  · obtain ⟨t, ht, hdv⟩ := hdep v hv
    rw [← hveq]
    exact List.ne_nil_of_mem (List.mem_filter.mpr ⟨ht, hdv⟩)

lemma groupProductTerms_nonempty (P : Product) (allVars : List String)
    (hdep : ∀ v ∈ allVars, ∃ t ∈ P.real, t.dependsOnVar v = true) :
    ∀ g ∈ groupProductTerms P allVars, g.2 ≠ [] :=
  groupProductTerms_pres
    (fun _ _ hms hq => mergeStep_pres_nonempty hms hq) P allVars
    (initialGroups_nonempty P allVars hdep)

lemma buildPartList_none_of_empty {range : Option String}
    {gs : List ProdGroup} (h : ∃ g ∈ gs, g.2 = []) :
    buildPartList range gs = none := by
  induction gs with
  | nil => obtain ⟨g, hg, -⟩ := h; cases hg
  | cons g t ih =>
    obtain ⟨g', hg', hg'e⟩ := h
    rw [buildPartList]
    rcases List.mem_cons.mp hg' with rfl | hmem
    · have : buildGroup range g' = none := by
        unfold buildGroup
        rw [hg'e]
      rw [this]
    · rw [ih ⟨g', hmem, hg'e⟩]
      cases buildGroup range g <;> rfl

lemma buildGroup_isSome (range : Option String) {g : ProdGroup}
    (h : g.2 ≠ []) : (buildGroup range g).isSome = true := by
  unfold buildGroup
  cases h2 : g.2 with
  | nil => exact absurd h2 h
  | cons t ts => cases ts <;> rfl

lemma buildPartList_isSome {range : Option String} {gs : List ProdGroup}
    (h : ∀ g ∈ gs, g.2 ≠ []) :
    (buildPartList range gs).isSome = true := by
  induction gs with
  | nil => rfl
  | cons g t ih =>
    rw [buildPartList]
    have h1 := buildGroup_isSome range (h g (by simp))
    cases hb : buildGroup range g with
    | none => rw [hb] at h1; cases h1
    | some e =>
      have h2 := ih (fun g' hg' => h g' (List.mem_cons_of_mem g hg'))
      cases hl : buildPartList range t with
      | none => rw [hl] at h2; cases h2
      | some l => rfl

/-! Cache-manager lemmas: store and lookup round-trip. -/

lemma findKey_lt {key : List String × Option String} :
    ∀ {l : List CacheSlot} {i : Nat}, findKey key l = some i → i < l.length := by
  intro l
  induction l with
  | nil => intro i h; cases h
  | cons s rest ih =>
    intro i h
    rw [findKey] at h
    by_cases hm : s.names = key.1 ∧ s.range = key.2
    · rw [if_pos hm] at h
      simp only [Option.some.injEq] at h
      subst h
      simp
    · rw [if_neg hm] at h
      cases hf : findKey key rest with
      | none => rw [hf] at h; cases h
      | some j =>
        rw [hf] at h
        simp only [Option.map_some', Option.some.injEq] at h
        subst h
        have := ih hf
        simp only [List.length_cons]
        omega

lemma findKey_set_match {key : List String × Option String} (s' : CacheSlot)
    (hs1 : s'.names = key.1) (hs2 : s'.range = key.2) :
    ∀ {l : List CacheSlot} {i : Nat}, findKey key l = some i →
      findKey key (l.set i s') = some i := by
  intro l
  induction l with
  | nil => intro i h; cases h
  | cons s rest ih =>
    intro i h
    rw [findKey] at h
    by_cases hm : s.names = key.1 ∧ s.range = key.2
    · rw [if_pos hm] at h
      simp only [Option.some.injEq] at h
      subst h
      rw [List.set_cons_zero, findKey, if_pos ⟨hs1, hs2⟩]
    · rw [if_neg hm] at h
      cases hf : findKey key rest with
      | none => rw [hf] at h; cases h
      | some j =>
        rw [hf] at h
        simp only [Option.map_some', Option.some.injEq] at h
        subst h
        rw [List.set_cons_succ, findKey, if_neg hm, ih hf]
        rfl

lemma findKey_append_match {key : List String × Option String} (s' : CacheSlot)
    (hs1 : s'.names = key.1) (hs2 : s'.range = key.2) :
    ∀ {l : List CacheSlot}, findKey key l = none →
      findKey key (l ++ [s']) = some l.length := by
  intro l
  induction l with
  | nil =>
    intro _
    rw [List.nil_append, findKey, if_pos ⟨hs1, hs2⟩]
    rfl
  | cons s rest ih =>
    intro h
    rw [findKey] at h
    by_cases hm : s.names = key.1 ∧ s.range = key.2
    · rw [if_pos hm] at h; cases h
    · rw [if_neg hm] at h
      have hf : findKey key rest = none := by
        cases hf : findKey key rest with
        | none => rfl
        | some j => rw [hf] at h; cases h
      rw [List.cons_append, findKey, if_neg hm, ih hf]
      rfl

lemma setObj_lookup (c : CacheMgr) (key : List String × Option String)
    (e : CacheElem) :
    getObjIdx (setObj c key e).2 key = some (setObj c key e).1 := by
  cases hf : findKey key c.slots with
  | some i =>
    have h2 : setObj c key e = (i, ⟨c.slots.set i ⟨key.1, key.2, some e⟩⟩) := by
      unfold setObj; rw [hf]
    have hfk := findKey_set_match ⟨key.1, key.2, some e⟩ rfl rfl hf
    have hlt : i < c.slots.length := findKey_lt hf
    have hget : ((c.slots.set i (⟨key.1, key.2, some e⟩ : CacheSlot)).get? i).bind
        CacheSlot.payload = some e := by
      rw [List.get?_eq_getElem?, List.getElem?_set_self (by simpa using hlt)]
      rfl
    rw [h2]
    unfold getObjIdx
    simp only [hfk, hget]
  | none =>
    have h2 : setObj c key e
        = (c.slots.length, ⟨c.slots ++ [⟨key.1, key.2, some e⟩]⟩) := by
      unfold setObj; rw [hf]
    have hfk := findKey_append_match ⟨key.1, key.2, some e⟩ rfl rfl hf
    have hget : ((c.slots ++ [(⟨key.1, key.2, some e⟩ : CacheSlot)]).get?
        c.slots.length).bind CacheSlot.payload = some e := by
      rw [List.get?_eq_getElem?, List.getElem?_concat_length]
      rfl
    rw [h2]
    unfold getObjIdx
    simp only [hfk, hget]

/-! Fold lemmas for the evaluators. -/

lemma foldl_mul_eq {α : Type} (f : α → ℚ) :
    ∀ (l : List α) (a : ℚ),
      l.foldl (fun acc x => acc * f x) a = a * (l.map f).prod := by
  intro l
  induction l with
  | nil => intro a; simp
  | cons x t ih =>
    intro a
    simp only [List.foldl_cons, List.map_cons, List.prod_cons]
    rw [ih]
    ring

/-! Claim theorems. -/

/-- C1: for every product (with uniquely named real components, as
`RooArgSet` membership guarantees) and every duplicate-free
integration-variable set, the groups returned by `groupProductTerms` have
variable-set sizes summing to the number of integration variables and
term-set sizes summing to the number of real components — the two final
`assert`s of `groupProductTerms` always hold. -/
theorem claim1_group_sizes (P : Product) (allVars : List String)
    (hnd : allVars.Nodup) (hnm : (P.real.map RealTerm.name).Nodup) :
    ((groupProductTerms P allVars).map (fun g => g.1.length)).sum
        = allVars.length ∧
    ((groupProductTerms P allVars).map (fun g => g.2.length)).sum
        = P.real.length :=
  ⟨groupProductTerms_sum_vars P allVars hnd,
   groupProductTerms_sum_terms P allVars hnm⟩

/-- C1 witness: f(x), g(y), h(x,y) integrated over x and y. -/
theorem claim1_group_sizes_witness :
    (["x", "y"] : List String).Nodup ∧
    (([⟨"f", ["x"]⟩, ⟨"g", ["y"]⟩, ⟨"h", ["x", "y"]⟩] : List RealTerm).map
        RealTerm.name).Nodup ∧
    (((groupProductTerms
        ⟨[⟨"f", ["x"]⟩, ⟨"g", ["y"]⟩, ⟨"h", ["x", "y"]⟩], [], none⟩
        ["x", "y"]).map (fun g => g.1.length)).sum
          = (["x", "y"] : List String).length ∧
     ((groupProductTerms
        ⟨[⟨"f", ["x"]⟩, ⟨"g", ["y"]⟩, ⟨"h", ["x", "y"]⟩], [], none⟩
        ["x", "y"]).map (fun g => g.2.length)).sum
          = ([⟨"f", ["x"]⟩, ⟨"g", ["y"]⟩, ⟨"h", ["x", "y"]⟩] :
              List RealTerm).length) :=
  ⟨by decide, by decide,
   claim1_group_sizes ⟨[⟨"f", ["x"]⟩, ⟨"g", ["y"]⟩, ⟨"h", ["x", "y"]⟩], [], none⟩
     ["x", "y"] (by decide) (by decide)⟩

/-- C2: after the merge loop, no two groups' term sets overlap, the
variable sets of distinct groups are pairwise disjoint, and every
integration variable sits in exactly one group's variable set. -/
theorem claim2_disjointness (P : Product) (allVars : List String)
    (hnd : allVars.Nodup) :
    List.Pairwise (fun a b : ProdGroup => overlapsTerms a.2 b.2 = false)
      (groupProductTerms P allVars) ∧
    List.Pairwise (fun a b : ProdGroup => ∀ v ∈ a.1, v ∉ b.1)
      (groupProductTerms P allVars) ∧
    ∀ v ∈ allVars,
      (groupProductTerms P allVars).countP (fun g => g.1.contains v) = 1 :=
  ⟨groupProductTerms_no_overlap P allVars,
   groupProductTerms_vars_disjoint P allVars hnd,
   fun _ hv => groupProductTerms_var_once P allVars hnd hv⟩

/-- C2 witness: f(x), g(y), h(x,y) integrated over x and y. -/
theorem claim2_disjointness_witness :
    (["x", "y"] : List String).Nodup ∧
    (List.Pairwise (fun a b : ProdGroup => overlapsTerms a.2 b.2 = false)
      (groupProductTerms
        ⟨[⟨"f", ["x"]⟩, ⟨"g", ["y"]⟩, ⟨"h", ["x", "y"]⟩], [], none⟩
        ["x", "y"]) ∧
     List.Pairwise (fun a b : ProdGroup => ∀ v ∈ a.1, v ∉ b.1)
      (groupProductTerms
        ⟨[⟨"f", ["x"]⟩, ⟨"g", ["y"]⟩, ⟨"h", ["x", "y"]⟩], [], none⟩
        ["x", "y"]) ∧
     ∀ v ∈ (["x", "y"] : List String),
      (groupProductTerms
        ⟨[⟨"f", ["x"]⟩, ⟨"g", ["y"]⟩, ⟨"h", ["x", "y"]⟩], [], none⟩
        ["x", "y"]).countP (fun g => g.1.contains v) = 1) :=
  ⟨by decide,
   claim2_disjointness
     ⟨[⟨"f", ["x"]⟩, ⟨"g", ["y"]⟩, ⟨"h", ["x", "y"]⟩], [], none⟩
     ["x", "y"] (by decide)⟩

/-- C3: when grouping returns fewer than two groups, `getPartIntList`
leaves the cache untouched whatever happens, and — when the cache has no
live entry for the key — returns the not-found code `-1`, so nothing is
ever stored under a degenerate key. -/
theorem claim3_degenerate (P : Product) (c : CacheMgr) (iset : List String)
    (range : Option String)
    (hdeg : (groupProductTerms P iset).length < 2) :
    (getObjIdx c (normNames iset, range) = none →
      getPartIntList P c iset range = some (-1, c)) ∧
    ∀ (code : Int) (c' : CacheMgr),
      getPartIntList P c iset range = some (code, c') → c' = c := by
  constructor
  · intro hmiss
    unfold getPartIntList
    rw [hmiss, if_pos hdeg]
  · intro code c' h
    unfold getPartIntList at h
    cases hobj : getObjIdx c (normNames iset, range) with
    | some i =>
      rw [hobj] at h
      simp only [Option.some.injEq, Prod.mk.injEq] at h
      exact h.2.symm
    | none =>
      rw [hobj, if_pos hdeg] at h
      simp only [Option.some.injEq, Prod.mk.injEq] at h
      exact h.2.symm

/-- C3 witness: a single term integrated over its only dependency. -/
theorem claim3_degenerate_witness :
    (groupProductTerms ⟨[⟨"f", ["x"]⟩], [], none⟩ ["x"]).length < 2 ∧
    (getObjIdx emptyCache (normNames ["x"], none) = none →
      getPartIntList ⟨[⟨"f", ["x"]⟩], [], none⟩ emptyCache ["x"] none
        = some (-1, emptyCache)) :=
  ⟨by decide,
   (claim3_degenerate ⟨[⟨"f", ["x"]⟩], [], none⟩ emptyCache ["x"] none
     (by decide)).1⟩

/-- Fixed example valuation giving every real term the value 5/2. -/
def rvalExample : RVal := fun _ _ => 5 / 2

/-- C4: `evaluate` is the product of the real components' values under the
set's own normalization set times the product of the category components'
indices; with one real term at 2.5 and one discrete term at index 3 it
yields 7.5. -/
theorem claim4_evaluate :
    (∀ (rval : RVal) (P : Product),
        RooProduct.evaluate rval P
          = (P.real.map (fun t => rval t.name P.nset)).prod
            * (P.cat.map (fun c => (c.idx : ℚ))).prod) ∧
    RooProduct.evaluate rvalExample
        ⟨[⟨"f", ["x"]⟩], [⟨"c", 3⟩], none⟩ = 15 / 2 := by
  constructor
  · intro rval P
    unfold RooProduct.evaluate
    rw [foldl_mul_eq, foldl_mul_eq]
    ring
  · unfold RooProduct.evaluate rvalExample
    simp only [List.foldl_cons, List.foldl_nil]
    norm_num

/-- C7 counterexample: `makeFPName` does not sort; the two orderings of the
same two-element term set produce different sub-product names, both at
`makeFPName` itself and through the builder's multi-term branch. -/
theorem claim7_cex :
    List.Perm ([⟨"f", ["x"]⟩, ⟨"g", ["y"]⟩] : List RealTerm)
      [⟨"g", ["y"]⟩, ⟨"f", ["x"]⟩] ∧
    makeFPName "SUBPROD_" [⟨"f", ["x"]⟩, ⟨"g", ["y"]⟩]
      ≠ makeFPName "SUBPROD_" [⟨"g", ["y"]⟩, ⟨"f", ["x"]⟩] ∧
    buildGroup none ([], [⟨"f", ["x"]⟩, ⟨"g", ["y"]⟩])
      ≠ buildGroup none ([], [⟨"g", ["y"]⟩, ⟨"f", ["x"]⟩]) :=
  ⟨by decide, by decide, by decide⟩

/-- C7 amended: the sub-product name is derived deterministically from the
member names in the order stored in the group's term set (prefix followed
by the names joined with `_X_`): two groups whose ordered member-name lists
agree get the same name, but different encounter orders of the same set may
differ. The builder names every multi-member group this way. -/
theorem claim7_amended (pfx : String) (ts ts' : List RealTerm)
    (h : ts.map RealTerm.name = ts'.map RealTerm.name) :
    makeFPName pfx ts = makeFPName pfx ts' ∧
    ∀ (range : Option String) (t t' : RealTerm) (rest : List RealTerm)
      (vs : List String),
      buildGroup range (vs, t :: t' :: rest)
        = some (if vs.isEmpty then
            PartElem.direct (.subProd
              (makeFPName "SUBPROD_" (t :: t' :: rest)) (t :: t' :: rest))
          else
            PartElem.integ (.subProd
              (makeFPName "SUBPROD_" (t :: t' :: rest)) (t :: t' :: rest))
              vs range) := by
  constructor
  · unfold makeFPName
    rw [h]
  · intro range t t' rest vs
    rfl

/-- C7 amended witness: same ordered names, different dependency lists. -/
theorem claim7_amended_witness :
    (([⟨"f", ["x"]⟩, ⟨"g", ["y"]⟩] : List RealTerm).map RealTerm.name
      = ([⟨"f", ["x", "y"]⟩, ⟨"g", ["y", "z"]⟩] : List RealTerm).map
          RealTerm.name) ∧
    makeFPName "SUBPROD_" [⟨"f", ["x"]⟩, ⟨"g", ["y"]⟩]
      = makeFPName "SUBPROD_" [⟨"f", ["x", "y"]⟩, ⟨"g", ["y", "z"]⟩] :=
  ⟨by decide,
   (claim7_amended "SUBPROD_" [⟨"f", ["x"]⟩, ⟨"g", ["y"]⟩]
     [⟨"f", ["x", "y"]⟩, ⟨"g", ["y", "z"]⟩] (by decide)).1⟩

/-- C8: when some real components are independent of all integration
variables, the grouper emits exactly one group with an empty variable set —
it holds exactly the independent terms and comes first — and for f(x), g(y)
integrated over x the output is (∅, g), (x, f), whose built list
multiplies g's current value by the integral of f over x. -/
theorem claim8_indep_first (P : Product) (allVars : List String)
    (hnm : (P.real.map RealTerm.name).Nodup)
    (hne : indepTerms P allVars ≠ []) :
    (∃ rest, groupProductTerms P allVars
        = ([], indepTerms P allVars) :: rest ∧ ∀ g ∈ rest, g.1 ≠ []) ∧
    groupProductTerms ⟨[⟨"f", ["x"]⟩, ⟨"g", ["y"]⟩], [], none⟩ ["x"]
      = [([], [⟨"g", ["y"]⟩]), (["x"], [⟨"f", ["x"]⟩])] ∧
    buildPartList none
        (groupProductTerms ⟨[⟨"f", ["x"]⟩, ⟨"g", ["y"]⟩], [], none⟩ ["x"])
      = some [.direct (.single ⟨"g", ["y"]⟩),
              .integ (.single ⟨"f", ["x"]⟩) ["x"] none] ∧
    ∀ (rval : RVal) (ival : IVal),
      calculate rval ival
          [.direct (.single ⟨"g", ["y"]⟩),
           .integ (.single ⟨"f", ["x"]⟩) ["x"] none]
        = rval "g" none * ival (.single ⟨"f", ["x"]⟩) ["x"] none := by
  refine ⟨groupProductTerms_head_indep P allVars hnm hne, by decide, by decide, ?_⟩
  intro rval ival
  unfold calculate PartElem.val BuiltTerm.val
  simp

/-- C8 witness: the f(x), g(y) product integrated over x only. -/
theorem claim8_indep_first_witness :
    (([⟨"f", ["x"]⟩, ⟨"g", ["y"]⟩] : List RealTerm).map RealTerm.name).Nodup ∧
    indepTerms ⟨[⟨"f", ["x"]⟩, ⟨"g", ["y"]⟩], [], none⟩ ["x"] ≠ [] ∧
    (∃ rest, groupProductTerms ⟨[⟨"f", ["x"]⟩, ⟨"g", ["y"]⟩], [], none⟩ ["x"]
        = ([], indepTerms ⟨[⟨"f", ["x"]⟩, ⟨"g", ["y"]⟩], [], none⟩ ["x"]) :: rest ∧
      ∀ g ∈ rest, g.1 ≠ []) :=
  ⟨by decide, by decide,
   (claim8_indep_first ⟨[⟨"f", ["x"]⟩, ⟨"g", ["y"]⟩], [], none⟩ ["x"]
     (by decide) (by decide)).1⟩

/-- C9: a requested integration variable on which no real component depends
gets its own group with an empty term set, which survives the merge loop;
the builder loop rejects any group list containing it (the
`assert(i->second->getSize()==1)` fails), while under the precondition
that every requested variable has at least one dependent real component
the builder succeeds on the grouper's output. -/
theorem claim9_empty_term_group (P : Product) (allVars : List String)
    (v : String) (hv : v ∈ allVars)
    (hnodep : ∀ t ∈ P.real, t.dependsOnVar v = false) :
    ([v], ([] : List RealTerm)) ∈ groupProductTerms P allVars ∧
    (∀ range : Option String,
        buildPartList range (groupProductTerms P allVars) = none) ∧
    (∀ (Q : Product) (vs : List String) (range : Option String),
        (∀ w ∈ vs, ∃ t ∈ Q.real, t.dependsOnVar w = true) →
        (buildPartList range (groupProductTerms Q vs)).isSome = true) := by
  refine ⟨groupProductTerms_empty_group P allVars hv hnodep, ?_, ?_⟩
  · intro range
    exact buildPartList_none_of_empty
      ⟨([v], []), groupProductTerms_empty_group P allVars hv hnodep, rfl⟩
  · intro Q vs range hdep
    exact buildPartList_isSome (groupProductTerms_nonempty Q vs hdep)

/-- C9 witness: integrating f(x) over x and z, where nothing depends on z. -/
theorem claim9_empty_term_group_witness :
    ("z" ∈ (["x", "z"] : List String)) ∧
    (∀ t ∈ ([⟨"f", ["x"]⟩] : List RealTerm), t.dependsOnVar "z" = false) ∧
    (["z"], ([] : List RealTerm))
      ∈ groupProductTerms ⟨[⟨"f", ["x"]⟩], [], none⟩ ["x", "z"] :=
  ⟨by decide, by decide,
   (claim9_empty_term_group ⟨[⟨"f", ["x"]⟩], [], none⟩ ["x", "z"] "z"
     (by decide) (by decide)).1⟩

/-- C10: multiplication starts from 1: an empty product evaluates to 1, a
discrete-only product evaluates to the product of the category indices,
and `calculate` of an empty partial-integral list is 1. -/
theorem claim10_identity :
    (∀ (rval : RVal) (nset : Option (List String)),
        RooProduct.evaluate rval ⟨[], [], nset⟩ = 1) ∧
    (∀ (rval : RVal) (cats : List CatTerm) (nset : Option (List String)),
        RooProduct.evaluate rval ⟨[], cats, nset⟩
          = (cats.map (fun c => (c.idx : ℚ))).prod) ∧
    (∀ (rval : RVal) (ival : IVal), calculate rval ival [] = 1) := by
  refine ⟨fun _ _ => rfl, ?_, fun _ _ => rfl⟩
  intro rval cats nset
  unfold RooProduct.evaluate
  simp only [List.foldl_nil]
  rw [foldl_mul_eq]
  ring

/-- C6: store/lookup round-trip. After a `getPartIntList` call that did not
give up (code ≥ 0), a later call with an equal-by-value variable set (same
normalized name set) and the same range token returns the same code and
leaves the cache exactly as it was — nothing is rebuilt or restored. -/
theorem claim6_roundtrip (P : Product) (c0 : CacheMgr)
    (iset iset' : List String) (range : Option String) (code : Int)
    (c1 : CacheMgr)
    (h : getPartIntList P c0 iset range = some (code, c1))
    (hge : 0 ≤ code)
    (heq : normNames iset' = normNames iset) :
    getPartIntList P c1 iset' range = some (code, c1) := by
  unfold getPartIntList at h ⊢
  rw [heq]
  cases hobj : getObjIdx c0 (normNames iset, range) with
  | some i =>
    rw [hobj] at h
    simp only [Option.some.injEq, Prod.mk.injEq] at h
    obtain ⟨rfl, rfl⟩ := h
    rw [hobj]
  | none =>
    rw [hobj] at h
    by_cases hlen : (groupProductTerms P iset).length < 2
    · rw [if_pos hlen] at h
      simp only [Option.some.injEq, Prod.mk.injEq] at h
      obtain ⟨h1, -⟩ := h
      omega
    · rw [if_neg hlen] at h
      cases hb : buildPartList range (groupProductTerms P iset) with
      | none => rw [hb] at h; cases h
      | some l =>
        rw [hb] at h
        simp only [Option.some.injEq, Prod.mk.injEq] at h
        obtain ⟨hcode, hc1⟩ := h
        rw [← hc1, setObj_lookup c0 (normNames iset, range) ⟨l⟩]
        simp only []
        rw [hcode, hc1]

/-- C6 witness: store f(x)·g(y) integrated over x, then look it up again. -/
theorem claim6_roundtrip_witness :
    getPartIntList ⟨[⟨"f", ["x"]⟩, ⟨"g", ["y"]⟩], [], none⟩ emptyCache
        ["x"] none
      = some (0, ⟨[⟨["x"], none,
          some ⟨[.direct (.single ⟨"g", ["y"]⟩),
                 .integ (.single ⟨"f", ["x"]⟩) ["x"] none]⟩⟩]⟩) ∧
    (0 : Int) ≤ 0 ∧
    getPartIntList ⟨[⟨"f", ["x"]⟩, ⟨"g", ["y"]⟩], [], none⟩
        ⟨[⟨["x"], none,
          some ⟨[.direct (.single ⟨"g", ["y"]⟩),
                 .integ (.single ⟨"f", ["x"]⟩) ["x"] none]⟩⟩]⟩
        ["x"] none
      = some (0, ⟨[⟨["x"], none,
          some ⟨[.direct (.single ⟨"g", ["y"]⟩),
                 .integ (.single ⟨"f", ["x"]⟩) ["x"] none]⟩⟩]⟩) :=
  ⟨by decide, by decide,
   claim6_roundtrip ⟨[⟨"f", ["x"]⟩, ⟨"g", ["y"]⟩], [], none⟩ emptyCache
     ["x"] ["x"] none 0
     ⟨[⟨["x"], none,
        some ⟨[.direct (.single ⟨"g", ["y"]⟩),
               .integ (.single ⟨"f", ["x"]⟩) ["x"] none]⟩⟩]⟩
     (by decide) (by decide) rfl⟩

/-- C5: sterilization and revival. For an entry stored by `getPartIntList`
from a fresh cache under an already-normalized variable set, evaluating its
1-based code via `analyticalIntegral` after the slot is sterilized detects
the miss, re-derives the variable set from the persisted descriptor, re-runs
grouping and building, passes the same-slot check (`assert(code==code2)`),
restores the slot, and returns the same value as before sterilization. -/
theorem claim5_revival (rval : RVal) (ival : IVal) (P : Product)
    (iset : List String) (range : Option String) (code : Int) (c1 : CacheMgr)
    (hnorm : normNames iset = iset)
    (h : getPartIntList P emptyCache iset range = some (code, c1))
    (hge : 0 ≤ code) :
    ∃ v, analyticalIntegral rval ival P c1 (code + 1) range = some (v, c1) ∧
      analyticalIntegral rval ival P (sterilize c1 code.toNat) (code + 1)
          range = some (v, c1) ∧
      getObjByIndex c1 code.toNat ≠ none := by
  unfold getPartIntList at h
  have hobj : getObjIdx emptyCache (normNames iset, range) = none := rfl
  rw [hobj] at h
  by_cases hlen : (groupProductTerms P iset).length < 2
  · rw [if_pos hlen] at h
    simp only [Option.some.injEq, Prod.mk.injEq] at h
    obtain ⟨h1, -⟩ := h
    omega
  · rw [if_neg hlen] at h
    cases hb : buildPartList range (groupProductTerms P iset) with
    | none => rw [hb] at h; cases h
    | some l =>
      rw [hb] at h
      have hset : setObj emptyCache (normNames iset, range) ⟨l⟩
          = (0, ⟨[⟨normNames iset, range, some ⟨l⟩⟩]⟩) := rfl
      simp only [Option.some.injEq, Prod.mk.injEq] at h
      rw [hset] at h
      obtain ⟨hcode, hc1⟩ := h
      have hcode0 : code = 0 := by omega
      subst hcode0
      rw [hnorm] at hc1
      subst hc1
      have hre : getPartIntList P ⟨[⟨iset, range, none⟩]⟩ iset range
          = some (0, ⟨[⟨iset, range, some ⟨l⟩⟩]⟩) := by
        unfold getPartIntList
        have hobj2 : getObjIdx ⟨[⟨iset, range, none⟩]⟩
            (normNames iset, range) = none := by
          rw [hnorm]
          unfold getObjIdx findKey
          rw [if_pos ⟨rfl, rfl⟩]
          rfl
        rw [hobj2, if_neg hlen, hb]
        have hset2 : setObj ⟨[⟨iset, range, none⟩]⟩ (normNames iset, range)
            ⟨l⟩ = (0, ⟨[⟨iset, range, some ⟨l⟩⟩]⟩) := by
          rw [hnorm]
          unfold setObj findKey
          rw [if_pos ⟨rfl, rfl⟩]
          rfl
        simp only [hset2, Nat.cast_zero]
      refine ⟨calculate rval ival l, rfl, ?_, Option.some_ne_none _⟩
      have hstep : analyticalIntegral rval ival P ⟨[⟨iset, range, none⟩]⟩
          (0 + 1) range
          = (match getPartIntList P ⟨[⟨iset, range, none⟩]⟩ iset range with
             | none => none
             | some (code2, c') =>
               if code2 + 1 = 0 + 1 then
                 match getObjByIndex c' ((0 + 1 : Int) - 1).toNat with
                 | some cache => some (calculate rval ival cache.prodList, c')
                 | none => none
               else none) := rfl
      show analyticalIntegral rval ival P ⟨[⟨iset, range, none⟩]⟩ (0 + 1)
          range = some (calculate rval ival l, ⟨[⟨iset, range, some ⟨l⟩⟩]⟩)
      rw [hstep, hre]
      rfl

/-- Fixed example valuation for integral objects, giving each the value 4. -/
def ivalExample : IVal := fun _ _ _ => 4

/-- C5 witness: f(x)·g(y) integrated over x, sterilized and revived. -/
theorem claim5_revival_witness :
    normNames ["x"] = ["x"] ∧
    getPartIntList ⟨[⟨"f", ["x"]⟩, ⟨"g", ["y"]⟩], [], none⟩ emptyCache
        ["x"] none
      = some (0, ⟨[⟨["x"], none,
          some ⟨[.direct (.single ⟨"g", ["y"]⟩),
                 .integ (.single ⟨"f", ["x"]⟩) ["x"] none]⟩⟩]⟩) ∧
    (0 : Int) ≤ 0 ∧
    ∃ v, analyticalIntegral rvalExample ivalExample
          ⟨[⟨"f", ["x"]⟩, ⟨"g", ["y"]⟩], [], none⟩
          ⟨[⟨["x"], none,
            some ⟨[.direct (.single ⟨"g", ["y"]⟩),
                   .integ (.single ⟨"f", ["x"]⟩) ["x"] none]⟩⟩]⟩
          ((0 : Int) + 1) none
        = some (v, ⟨[⟨["x"], none,
            some ⟨[.direct (.single ⟨"g", ["y"]⟩),
                   .integ (.single ⟨"f", ["x"]⟩) ["x"] none]⟩⟩]⟩) ∧
      analyticalIntegral rvalExample ivalExample
          ⟨[⟨"f", ["x"]⟩, ⟨"g", ["y"]⟩], [], none⟩
          (sterilize ⟨[⟨["x"], none,
            some ⟨[.direct (.single ⟨"g", ["y"]⟩),
                   .integ (.single ⟨"f", ["x"]⟩) ["x"] none]⟩⟩]⟩
            (0 : Int).toNat)
          ((0 : Int) + 1) none
        = some (v, ⟨[⟨["x"], none,
            some ⟨[.direct (.single ⟨"g", ["y"]⟩),
                   .integ (.single ⟨"f", ["x"]⟩) ["x"] none]⟩⟩]⟩) ∧
      getObjByIndex ⟨[⟨["x"], none,
          some ⟨[.direct (.single ⟨"g", ["y"]⟩),
                 .integ (.single ⟨"f", ["x"]⟩) ["x"] none]⟩⟩]⟩
        (0 : Int).toNat ≠ none :=
  ⟨by decide, by decide, by decide,
   claim5_revival rvalExample ivalExample
     ⟨[⟨"f", ["x"]⟩, ⟨"g", ["y"]⟩], [], none⟩ ["x"] none 0
     ⟨[⟨["x"], none,
        some ⟨[.direct (.single ⟨"g", ["y"]⟩),
               .integ (.single ⟨"f", ["x"]⟩) ["x"] none]⟩⟩]⟩
     (by decide) (by decide) (by decide)⟩
